import Mathlib

/-!
Verification of the temp-file lifecycle and batch transcription pipeline of
`app.py` (audio-to-transcripts).  Python strings are embedded as `List Char`,
machine state (the Streamlit session and the scratch directory) as explicit
records, and every effectful call (the OpenAI client, `os.remove`, `st.error`)
either as explicit state passing or as an oracle parameter.
-/

set_option autoImplicit false

namespace AudioApp

/-- Python whitespace as recognised by `str.strip()`. -/
def pySpace (c : Char) : Bool :=
  c = ' ' || c = '\t' || c = '\n' || c = '\r' || c = '\x0b' || c = '\x0c'

/-- Embedding of Python `str.strip()`: drop whitespace from both ends. -/
def pyStrip (s : List Char) : List Char :=
  ((s.dropWhile pySpace).reverse.dropWhile pySpace).reverse

/-- `startsWithText p l` holds when `p` is an initial segment of `l`
(Python `str.startswith`). -/
def startsWithText (p l : List Char) : Bool :=
  l.take p.length = p

/-- The argument passed to `transcribe_audio`: either a file path (`str` /
`os.PathLike`) or a value of some other type, which fails the `isinstance`
check at app.py:77. -/
inductive AudioArg where
  | path (p : List Char)
  | notPath
deriving DecidableEq

/-- Oracle for the effectful calls inside `transcribe_audio`'s `try` block:
construction of the OpenAI client (app.py:74) can raise, and
`open` + `client.audio.transcriptions.create` (app.py:79-83) can raise or
return a transcript object whose `.text` field may be falsy (`none` models
Python `None`; `some []` models the empty string). -/
structure TranscribeEnv where
  clientInit : Except (List Char) Unit
  call : List Char → Except (List Char) (Option (List Char))

/-- The error string built by the `except` handler at app.py:92-93. -/
def errFailText (e : List Char) : List Char :=
  "Error: Failed to transcribe audio - ".data ++ e

/-- Embedding of `transcribe_audio` (app.py:66-93).  All exceptions inside the
`try` block land in the single `except` handler; the `isinstance` guard and
the empty-transcript check return the other two error strings; a non-empty
transcript is returned stripped. -/
def transcribe_audio (env : TranscribeEnv) (arg : AudioArg) : List Char :=
  match env.clientInit with
  | .error e => errFailText e
  | .ok _ =>
    match arg with
    | .notPath => "Error: Internal - expected file path for transcription.".data
    | .path p =>
      match env.call p with
      | .error e => errFailText e
      | .ok t =>
        let txt := match t with
          | none => []
          | some s => pyStrip s
        if txt ≠ [] then txt
        else "Error: Could not understand audio. Try a file with clearer speech.".data

/-- Embedding of `save_to_txt` (app.py:95-99): it ignores its filename
argument and returns the text unchanged. -/
def save_to_txt (text : List Char) (filename : List Char := "transcript.txt".data) :
    List Char :=
  text

/-- The moment during one iteration of the sweep loop (app.py:29-38) at which
an entry is concurrently deleted by another actor: never, before the
`path.is_file()` check, between `is_file` and `path.stat()`, or between
`stat` and `path.unlink(missing_ok=True)`. -/
inductive RaceWindow where
  | nrace
  | beforeIsFile
  | beforeStat
  | beforeUnlink
deriving DecidableEq

/-- One directory entry of the scratch directory: its path, whether it is a
regular file, and its modification time in seconds. -/
structure Entry where
  path : List Char
  isFile : Bool
  mtime : Int
deriving DecidableEq

/-- The scratch directory: whether it exists on disk, and its entries. -/
structure FSDir where
  present : Bool
  entries : List Entry
deriving DecidableEq

/-- Retention window for temp files (app.py:16). -/
def MAX_TEMP_FILE_AGE_SECONDS : Int := 600

/-- The body of the sweep loop for one entry (app.py:30-38), before the
surrounding `try`/`except` is applied.  The result is `ok remains` where
`remains` says whether the entry is still in the directory afterwards;
`error` models `path.stat()` raising `FileNotFoundError` when the file
vanished between the `is_file` check and `stat`.  `unlink(missing_ok=True)`
and `is_file()` on a missing path never raise. -/
def entryStep (now maxAge : Int) (w : RaceWindow) (e : Entry) : Except (List Char) Bool :=
  match w with
  | .beforeIsFile => .ok false
  | .beforeStat => if e.isFile then .error "FileNotFoundError".data else .ok false
  | .beforeUnlink => .ok false
  | .nrace =>
    if e.isFile then .ok (!(decide (now - e.mtime > maxAge)))
    else .ok true

/-- One entry of the sweep loop with the `try`/`except Exception: pass`
wrapper (app.py:30, 36-38): a raised error is swallowed and the entry —
which in the race case is already gone from the directory — is dropped. -/
def entryOutcome (now maxAge : Int) (w : RaceWindow) (e : Entry) : Bool :=
  match entryStep now maxAge w e with
  | .ok b => b
  | .error _ => false

/-- Embedding of `delete_old_files_in_directory` (app.py:21-38): if the
directory does not exist, return immediately; otherwise iterate over the
entries, keeping each entry whose loop iteration leaves it in place.
`races` assigns each path the moment (if any) at which a concurrent actor
deletes it. -/
def delete_old_files_in_directory (d : FSDir) (races : List Char → RaceWindow)
    (now maxAge : Int) : FSDir :=
  if d.present then
    { d with entries := d.entries.filter (fun e => entryOutcome now maxAge (races e.path) e) }
  else d

/-- The race-free instantiation of the sweep. -/
def noRaces : List Char → RaceWindow := fun _ => RaceWindow.nrace

/-- The scratch directory name (app.py:15). -/
def TEMP_DIR : List Char := "temp_audio".data

/-- The final path component of `p` (the text after the last '/'). -/
def lastComponent (p : List Char) : List Char :=
  (p.reverse.takeWhile (fun c => c != '/')).reverse

/-- Split a separator-free component at its last '.': everything before the
last dot, and the last dot with what follows it. -/
def splitLastDot (c : List Char) : List Char × List Char :=
  (c.take (c.length - ((c.reverse.takeWhile (fun x => x != '.')).length + 1)),
   '.' :: (c.reverse.takeWhile (fun x => x != '.')).reverse)

/-- `os.path.splitext` restricted to one path component: no extension when
the component has no dot or when every character before its last dot is a
dot (CPython's leading-dot rule, so ".wav" has no extension). -/
def pySplitextComp (c : List Char) : List Char × List Char :=
  if '.' ∈ c then
    if (splitLastDot c).1.all (fun x => x == '.') then (c, [])
    else splitLastDot c
  else (c, [])

/-- Embedding of `os.path.splitext` (POSIX): the extension is taken from the
last path component only; the leading part of the path is returned untouched
inside the root. -/
def pySplitext (p : List Char) : List Char × List Char :=
  (p.take (p.length - (lastComponent p).length) ++ (pySplitextComp (lastComponent p)).1,
   (pySplitextComp (lastComponent p)).2)

/-- `base_name = os.path.splitext(name)[0] or "audio"` (app.py:157): the
splitext stem, with "audio" substituted for the empty (falsy) string. -/
def uploadBaseName (name : List Char) : List Char :=
  if (pySplitext name).1 = [] then "audio".data else (pySplitext name).1

/-- `file_ext = name.split('.')[-1]` (app.py:158): the text after the last
dot, or the whole name when it has no dot. -/
def uploadExt (name : List Char) : List Char :=
  (name.reverse.takeWhile (fun c => c != '.')).reverse

/-- Embedding of `os.path.join` (POSIX) for two components: an absolute
second component replaces the first; otherwise they are joined with '/'
unless the first is empty or already ends in '/'. -/
def osPathJoin (a b : List Char) : List Char :=
  if b.head? = some '/' then b
  else if a = [] then b
  else if a.getLast? = some '/' then a ++ b
  else a ++ '/' :: b

/-- The temp path allocated for an upload (app.py:156-159):
`os.path.join(TEMP_DIR, base_name + "_" + unique_id + "." + file_ext)`. -/
def allocateTempPath (name token : List Char) : List Char :=
  osPathJoin TEMP_DIR (uploadBaseName name ++ '_' :: (token ++ '.' :: uploadExt name))

/-- Split a path into components on '/'. -/
def splitSlash : List Char → List (List Char)
  | [] => [[]]
  | c :: rest =>
    if c = '/' then [] :: splitSlash rest
    else
      match splitSlash rest with
      | [] => [[c]]
      | r :: rs => (c :: r) :: rs

/-- Resolve "." , "" and ".." components of a relative path (stack-based
normalisation; leading ".." components that escape the root are kept). -/
def normComps : List (List Char) → List (List Char) → List (List Char)
  | acc, [] => acc.reverse
  | acc, c :: rest =>
    if c = [] ∨ c = ".".data then normComps acc rest
    else if c = "..".data then
      match acc with
      | [] => normComps ["..".data] rest
      | a :: acc' =>
        if a = "..".data then normComps (c :: a :: acc') rest
        else normComps acc' rest
    else normComps (c :: acc) rest

/-- A path (relative to the working directory) lies inside the scratch
directory when, after resolving "." and ".." components, it still has
`temp_audio` as its first component and names something strictly below it. -/
def liesInsideTempAudio (p : List Char) : Bool :=
  match normComps [] (splitSlash p) with
  | d :: _ :: _ => d == TEMP_DIR
  | _ => false

/-- Lowercase hex digit, as produced by `uuid.uuid4().hex`. -/
def isHexDigitChar (c : Char) : Bool :=
  ('0' ≤ c && c ≤ '9') || ('a' ≤ c && c ≤ 'f')

/-- An 8-character random token as produced by `uuid.uuid4().hex[:8]`
(app.py:156). -/
def isHexToken8 (t : List Char) : Bool :=
  t.length == 8 && t.all isHexDigitChar

/-- One uploaded file, as handed over by the file uploader widget (only the
name matters to the control flow; the raw bytes are opaque). -/
structure Upload where
  name : List Char
deriving DecidableEq

/-- One per-file result recorded in `st.session_state.transcripts`
(app.py:188-191). -/
structure TranscriptResult where
  name : List Char
  text : List Char
deriving DecidableEq

/-- The Streamlit session state used by `main` (app.py:118-123): the results
mapping, the `processed` flag and the auxiliary `temp_paths` mapping.
Python dicts are embedded as insertion-ordered association lists with unique
keys. -/
structure SessionState where
  transcripts : List (List Char × TranscriptResult)
  processed : Bool
  temp_paths : List (List Char × List Char)
deriving DecidableEq

/-- Environment of one run of the batch-processing block (app.py:148-196):
the uploaded files, the stream of `uuid.uuid4().hex[:8]` draws (indexed by
call order: draws 0..N-1 during allocation, N..2N-1 during the completion
loop), the per-temp-path outcome of a worker task (`ok` is the string
returned by `transcribe_audio`, `error` a raised exception caught at
app.py:185-186), the order in which futures complete, and the race schedule
seen by the final sweep. -/
structure BatchEnv where
  uploads : List Upload
  tokens : Nat → List Char
  outcome : List Char → Except (List Char) (List Char)
  order : List Nat
  races : List Char → RaceWindow

/-- Observable effects of a run: a user-visible error box (`st.error`) and an
attempted network transcription request for a given temp path. -/
inductive Eff where
  | errMsg (m : List Char)
  | network (p : List Char)
deriving DecidableEq

/-- `open(path, "wb")` + write (app.py:161-162): creates (or truncates) the
file at `path` with the current time as its modification time. -/
def writeFile (d : FSDir) (p : List Char) (t : Int) : FSDir :=
  { d with entries := ⟨p, true, t⟩ :: d.entries.filter (fun e => !(decide (e.path = p))) }

/-- `os.remove(path)` under `try`/`except` (app.py:174-177, 143-146):
removes the regular file at `path` if there is one; a missing path or a
directory raises and the exception is swallowed, leaving the state as is. -/
def removeFile (d : FSDir) (p : List Char) : FSDir :=
  { d with entries := d.entries.filter (fun e => !(decide (e.path = p) && e.isFile)) }

/-- Whether the directory holds a regular file at `p`. -/
def fsHasFile (d : FSDir) (p : List Char) : Bool :=
  d.entries.any (fun e => decide (e.path = p) && e.isFile)

/-- `os.path.exists(path)` against the scratch directory state. -/
def fsExistsPath (d : FSDir) (p : List Char) : Bool :=
  d.present && d.entries.any (fun e => decide (e.path = p))

/-- `Path(TEMP_DIR).mkdir(parents=True, exist_ok=True)` (app.py:56, 149). -/
def mkdirTemp (d : FSDir) : FSDir := { d with present := true }

/-- The allocation loop (app.py:155-163): pairs each upload's name with its
allocated temp path; upload `i` consumes random draw `i`. -/
def filesToProcessAux (env : BatchEnv) : Nat → List Upload → List (List Char × List Char)
  | _, [] => []
  | i, u :: rest =>
    (u.name, allocateTempPath u.name (env.tokens i)) :: filesToProcessAux env (i + 1) rest

def filesToProcess (env : BatchEnv) : List (List Char × List Char) :=
  filesToProcessAux env 0 env.uploads

/-- The transcript text recorded for one completed future (app.py:183-186):
the task's return value, or the handler's error string if it raised. -/
def taskText (env : BatchEnv) (p : List Char) : List Char :=
  match env.outcome p with
  | .ok s => s
  | .error e => errFailText e

/-- The `(name, path)` pairs in the order in which their futures complete
(app.py:180): position `j` of `env.order` names the index into
`filesToProcess` of the `j`-th future to complete. -/
def completedFiles (env : BatchEnv) : List (List Char × List Char) :=
  env.order.filterMap (fun i => (filesToProcess env).get? i)

/-- The `(file_key, result)` pairs built by the completion loop
(app.py:180-191): the `j`-th completion consumes random draw `N + j` and is
keyed `{unique_id}_{name}`. -/
def resultKVsAux (env : BatchEnv) : Nat → List (List Char × List Char) →
    List (List Char × TranscriptResult)
  | _, [] => []
  | j, f :: rest =>
    (env.tokens (env.uploads.length + j) ++ '_' :: f.1, ⟨f.1, taskText env f.2⟩) ::
      resultKVsAux env (j + 1) rest

def resultKVs (env : BatchEnv) : List (List Char × TranscriptResult) :=
  resultKVsAux env 0 (completedFiles env)

/-- Python dict assignment `d[k] = v`: replace in place if the key is
present, else append. -/
def dictInsert (k : List Char) (v : TranscriptResult) :
    List (List Char × TranscriptResult) → List (List Char × TranscriptResult)
  | [] => [(k, v)]
  | kv :: rest => if kv.1 = k then (k, v) :: rest else kv :: dictInsert k v rest

def insertAll (d : List (List Char × TranscriptResult))
    (kvs : List (List Char × TranscriptResult)) : List (List Char × TranscriptResult) :=
  kvs.foldl (fun acc kv => dictInsert kv.1 kv.2 acc) d

/-- Persisting every upload to disk (app.py:160-162). -/
def writeAllFiles (now : Int) : FSDir → List (List Char × List Char) → FSDir
  | d, [] => d
  | d, f :: rest => writeAllFiles now (writeFile d f.2 now) rest

/-- The per-task `finally` deletions (app.py:172-177), one per completed
unit of work. -/
def removeAllFiles : FSDir → List (List Char × List Char) → FSDir
  | d, [] => d
  | d, f :: rest => removeAllFiles (removeFile d f.2) rest

/-- Embedding of the `if st.button("Process")` block (app.py:148-196):
clear both session mappings, mkdir the scratch directory, persist all
uploads, run the worker tasks (each deleting its own temp file on
completion and attempting one network transcription), record one keyed
result per completed future, then run the best-effort sweep.  The prior
session state `st0` is discarded by the initial clearing. -/
def processBatch (env : BatchEnv) (fs0 : FSDir) (now : Int) (st0 : SessionState) :
    SessionState × FSDir × List Eff :=
  let files := filesToProcess env
  let fs1 := writeAllFiles now (mkdirTemp fs0) files
  let completed := completedFiles env
  let fs2 := removeAllFiles fs1 completed
  let transcripts := insertAll [] (resultKVs env)
  let fs3 := delete_old_files_in_directory fs2 env.races now MAX_TEMP_FILE_AGE_SECONDS
  ({ transcripts := transcripts, processed := true, temp_paths := [] },
   fs3, completed.map (fun f => Eff.network f.2))

/-- Python truthiness of `OPENAI_API_KEY` at app.py:114: `os.getenv` returns
`None` (absent) or a string, and both `None` and the empty string are
falsy. -/
def keyFalsy : Option (List Char) → Bool
  | none => true
  | some s => decide (s = [])

/-- The error box shown when the credential is missing (app.py:115). -/
def apiKeyMissingMsg : List Char :=
  "❌ OpenAI API key not found. Please add OPENAI_API_KEY to your .env file.".data

/-- Environment of one `main` run (app.py:103-222): the credential, the
batch environment, whether any file is uploaded and whether the Process
button was clicked on this rerun. -/
structure MainEnv where
  apiKey : Option (List Char)
  batch : BatchEnv
  hasUploads : Bool
  pressed : Bool

/-- Embedding of `main` (app.py:103-222): ensure the scratch directory and
run the startup sweep (app.py:110-111), then check the credential
(app.py:114-116) — if it is falsy, show exactly one error box and return
before any upload handling; otherwise run the batch block when files are
uploaded and the button is pressed. -/
def mainRun (env : MainEnv) (fs0 : FSDir) (now : Int) (st0 : SessionState) :
    SessionState × FSDir × List Eff :=
  let fs2 := delete_old_files_in_directory (mkdirTemp fs0) env.batch.races now
    MAX_TEMP_FILE_AGE_SECONDS
  if keyFalsy env.apiKey then (st0, fs2, [Eff.errMsg apiKeyMissingMsg])
  else if env.hasUploads && env.pressed then processBatch env.batch fs2 now st0
  else (st0, fs2, [])

/-- `st.session_state.temp_paths` lookup (`key in temp_paths` plus
`pop`). -/
def findTempPath : List (List Char × List Char) → List Char → Option (List Char)
  | [], _ => none
  | kv :: rest, k => if kv.1 = k then some kv.2 else findTempPath rest k

/-- Embedding of the `remove_transcript` callback (app.py:137-146): drop the
key from the results mapping if present; pop its recorded temp path if any,
and best-effort delete that file when the path is truthy and exists. -/
def remove_transcript (st : SessionState) (fs : FSDir) (key : List Char) :
    SessionState × FSDir :=
  let transcripts :=
    if st.transcripts.any (fun kv => decide (kv.1 = key)) then
      st.transcripts.filter (fun kv => !(decide (kv.1 = key)))
    else st.transcripts
  match findTempPath st.temp_paths key with
  | none => ({ st with transcripts := transcripts }, fs)
  | some p =>
    let tps := st.temp_paths.filter (fun kv => !(decide (kv.1 = key)))
    if p ≠ [] ∧ fsExistsPath fs p = true then
      ({ st with transcripts := transcripts, temp_paths := tps }, removeFile fs p)
    else ({ st with transcripts := transcripts, temp_paths := tps }, fs)

/-- Concrete scratch-directory data used by the closed witness theorems. -/
def wEntryOld : Entry := ⟨"temp_audio/a.wav".data, true, 0⟩

def wEntryBoundary : Entry := ⟨"temp_audio/b.wav".data, true, 400⟩

def wEntryGone : Entry := ⟨"temp_audio/c.wav".data, true, 0⟩

def wDir : FSDir := ⟨true, [wEntryOld, wEntryBoundary, wEntryGone]⟩

def wRaces : List Char → RaceWindow := fun p =>
  if p = "temp_audio/c.wav".data then RaceWindow.beforeStat else RaceWindow.nrace

def wDirMissing : FSDir := ⟨false, [wEntryOld]⟩

def wUploads : List Upload := [⟨"a.wav".data⟩, ⟨"b.mp3".data⟩]

def wTokens : Nat → List Char := fun i =>
  if i = 0 then "00000000".data
  else if i = 1 then "11111111".data
  else if i = 2 then "22222222".data
  else "33333333".data

def wBatchEnv : BatchEnv :=
  { uploads := wUploads
    tokens := wTokens
    outcome := fun p =>
      if p = allocateTempPath "b.mp3".data "11111111".data then
        .error "network down".data
      else .ok "hello".data
    order := [1, 0]
    races := noRaces }

def wSession0 : SessionState := ⟨[], false, []⟩

def wMainEnvNoKey : MainEnv :=
  { apiKey := none, batch := wBatchEnv, hasUploads := true, pressed := true }

def wKey : List Char := "00000000_a.wav".data

def wSessionFull : SessionState :=
  ⟨[(wKey, ⟨"a.wav".data, "hello".data⟩)], true, [(wKey, "temp_audio/a.wav".data)]⟩

theorem take_length_append (a b : List Char) : (a ++ b).take a.length = a := by
  simp [List.take_append]

theorem startsWithText_append (a b : List Char) (p : List Char)
    (h : startsWithText p a = true) (hle : p.length ≤ a.length) :
    startsWithText p (a ++ b) = true := by
  unfold startsWithText at h ⊢
  rw [List.take_append_of_le_length hle]
  exact h

theorem errFailText_starts (e : List Char) :
    startsWithText "Error:".data (errFailText e) = true := by
  unfold errFailText
  apply startsWithText_append
  · decide
  · decide

/-- C2: `transcribe_audio` always returns a string: every failure mode (client
construction failure, non-path argument, open/request exception, empty or
unintelligible transcript) yields a string starting with "Error:", and the
only other possible return is the stripped non-empty transcript text. -/
theorem transcribe_audio_total_spec (env : TranscribeEnv) (arg : AudioArg) :
    startsWithText "Error:".data (transcribe_audio env arg) = true ∨
    ∃ p t, arg = .path p ∧ env.call p = .ok (some t) ∧
      transcribe_audio env arg = pyStrip t ∧ pyStrip t ≠ [] := by
  cases hc : env.clientInit with
  | error e =>
    left
    simp only [transcribe_audio, hc]
    exact errFailText_starts e
  | ok u =>
    cases arg with
    | notPath =>
      left
      simp only [transcribe_audio, hc]
      decide
    | path p =>
      cases hcall : env.call p with
      | error e =>
        left
        simp only [transcribe_audio, hc, hcall]
        exact errFailText_starts e
      | ok t =>
        cases t with
        | none =>
          left
          simp only [transcribe_audio, hc, hcall]
          decide
        | some s =>
          by_cases hs : pyStrip s = []
          · left
            simp only [transcribe_audio, hc, hcall, hs]
            simp only [ne_eq, not_true_eq_false, if_false]
            decide
          · right
            refine ⟨p, s, rfl, hcall, ?_, hs⟩
            simp only [transcribe_audio, hc, hcall]
            simp [hs]

/-- C9: `save_to_txt` is the identity on its text argument and ignores the
filename, so the downloaded bytes are exactly the previewed transcript. -/
theorem save_to_txt_id (text filename : List Char) :
    save_to_txt text filename = text := rfl

theorem entryOutcome_race_false (now maxAge : Int) (w : RaceWindow) (e : Entry)
    (hw : w ≠ RaceWindow.nrace) : entryOutcome now maxAge w e = false := by
  cases w with
  | nrace => exact absurd rfl hw
  | beforeIsFile => rfl
  | beforeStat =>
    unfold entryOutcome entryStep
    cases hf : e.isFile <;> simp
  | beforeUnlink => rfl

/-- C4: one sweep call deletes every regular file whose age strictly exceeds
`maxAge` and keeps every regular file whose age is at most `maxAge`
(including exactly at the threshold); an entry that vanishes concurrently
mid-iteration has its `FileNotFoundError` swallowed (the loop continues) and
simply ends up absent, with the threshold behaviour of untouched entries
unaffected by races at other paths. -/
theorem sweep_age_threshold (d : FSDir) (races : List Char → RaceWindow)
    (now maxAge : Int) (e : Entry)
    (hp : d.present = true) (he : e ∈ d.entries)
    (hr : races e.path = RaceWindow.nrace) (hf : e.isFile = true) :
    (now - e.mtime > maxAge →
      e ∉ (delete_old_files_in_directory d races now maxAge).entries) ∧
    (now - e.mtime ≤ maxAge →
      e ∈ (delete_old_files_in_directory d races now maxAge).entries) ∧
    (∀ w e', (∃ m, entryStep now maxAge w e' = .error m) →
      entryOutcome now maxAge w e' = false) ∧
    (∀ e₂ ∈ d.entries, races e₂.path ≠ RaceWindow.nrace →
      e₂ ∉ (delete_old_files_in_directory d races now maxAge).entries) := by
  refine ⟨?_, ?_, ?_, ?_⟩
  · intro hold
    simp only [delete_old_files_in_directory, hp, if_true]
    simp only [List.mem_filter, not_and]
    intro _
    simp [entryOutcome, entryStep, hr, hf, hold]
  · intro hyoung
    simp only [delete_old_files_in_directory, hp, if_true]
    simp only [List.mem_filter]
    refine ⟨he, ?_⟩
    simp [entryOutcome, entryStep, hr, hf]
    omega
  · intro w e' ⟨m, hm⟩
    unfold entryOutcome
    rw [hm]
  · intro e₂ _ hw
    simp only [delete_old_files_in_directory, hp, if_true]
    simp only [List.mem_filter, not_and]
    intro _
    simp [entryOutcome_race_false now maxAge _ e₂ hw]

theorem sweep_age_threshold_witness :
    wEntryOld ∉ (delete_old_files_in_directory wDir wRaces 1000 600).entries ∧
    wEntryBoundary ∈ (delete_old_files_in_directory wDir wRaces 1000 600).entries ∧
    wEntryGone ∉ (delete_old_files_in_directory wDir wRaces 1000 600).entries := by
  refine ⟨?_, ?_, ?_⟩
  · exact (sweep_age_threshold wDir wRaces 1000 600 wEntryOld rfl (by decide)
      (by decide) rfl).1 (by decide)
  · exact (sweep_age_threshold wDir wRaces 1000 600 wEntryBoundary rfl (by decide)
      (by decide) rfl).2.1 (by decide)
  · exact (sweep_age_threshold wDir wRaces 1000 600 wEntryBoundary rfl (by decide)
      (by decide) rfl).2.2.2 wEntryGone (by decide) (by decide)

/-- C8: running the sweep twice in immediate succession (same directory, same
current time, same retention threshold) makes the second call a no-op: the
resulting directory state is identical to the state after the first call,
and the second call deletes nothing further. -/
theorem sweep_idempotent (d : FSDir) (now maxAge : Int) :
    delete_old_files_in_directory
        (delete_old_files_in_directory d noRaces now maxAge) noRaces now maxAge =
      delete_old_files_in_directory d noRaces now maxAge := by
  unfold delete_old_files_in_directory
  cases hp : d.present with
  | false => simp [hp]
  | true =>
    simp only [hp, if_true]
    simp [List.filter_filter]

/-- C10: when the scratch directory does not exist on disk, the sweep returns
without touching anything: the state (directory absent, entries as recorded)
is returned unchanged, for any retention threshold and any race schedule. -/
theorem sweep_missing_directory_noop (d : FSDir) (races : List Char → RaceWindow)
    (now maxAge : Int) (hp : d.present = false) :
    delete_old_files_in_directory d races now maxAge = d := by
  simp [delete_old_files_in_directory, hp]

theorem sweep_missing_directory_noop_witness :
    delete_old_files_in_directory wDirMissing noRaces 0 600 = wDirMissing :=
  sweep_missing_directory_noop wDirMissing noRaces 0 600 rfl

theorem mem_lastComponent (p : List Char) (c : Char) (hc : c ∈ lastComponent p) :
    c ∈ p := by
  unfold lastComponent at hc
  rw [List.mem_reverse] at hc
  exact List.mem_reverse.mp ((List.takeWhile_sublist _).mem hc)

theorem mem_splitLastDot_stem (l : List Char) (c : Char)
    (hc : c ∈ (splitLastDot l).1) : c ∈ l :=
  (List.take_sublist _ _).mem hc

theorem mem_pySplitextComp_stem (l : List Char) (c : Char)
    (hc : c ∈ (pySplitextComp l).1) : c ∈ l := by
  unfold pySplitextComp at hc
  split at hc
  · split at hc
    · exact hc
    · exact mem_splitLastDot_stem l c hc
  · exact hc

theorem mem_pySplitext_stem (p : List Char) (c : Char)
    (hc : c ∈ (pySplitext p).1) : c ∈ p := by
  unfold pySplitext at hc
  rcases List.mem_append.mp hc with h | h
  · exact (List.take_sublist _ _).mem h
  · exact mem_lastComponent p c (mem_pySplitextComp_stem _ c h)

theorem mem_uploadBaseName (name : List Char) (c : Char)
    (hc : c ∈ uploadBaseName name) : c ∈ name ∨ c ∈ "audio".data := by
  unfold uploadBaseName at hc
  split at hc
  · exact Or.inr hc
  · exact Or.inl (mem_pySplitext_stem name c hc)

theorem mem_uploadExt (name : List Char) (c : Char) (hc : c ∈ uploadExt name) :
    c ∈ name := by
  unfold uploadExt at hc
  rw [List.mem_reverse] at hc
  exact List.mem_reverse.mp ((List.takeWhile_sublist _).mem hc)

theorem uploadExt_no_dot (name : List Char) (c : Char) (hc : c ∈ uploadExt name) :
    c ≠ '.' := by
  unfold uploadExt at hc
  rw [List.mem_reverse] at hc
  have := List.mem_takeWhile_imp hc
  simpa using this

theorem uploadBaseName_ne_nil (name : List Char) : uploadBaseName name ≠ [] := by
  unfold uploadBaseName
  split
  · decide
  · assumption

theorem isHexToken8_length (t : List Char) (h : isHexToken8 t = true) :
    t.length = 8 := by
  unfold isHexToken8 at h
  rw [Bool.and_eq_true] at h
  have := h.1
  rwa [beq_iff_eq] at this

theorem isHexToken8_mem (t : List Char) (h : isHexToken8 t = true) (c : Char)
    (hc : c ∈ t) : isHexDigitChar c = true := by
  unfold isHexToken8 at h
  rw [Bool.and_eq_true, List.all_eq_true] at h
  exact h.2 c hc

theorem isHexDigitChar_ne_slash (c : Char) (h : isHexDigitChar c = true) :
    c ≠ '/' := by
  intro hc
  subst hc
  revert h
  decide

theorem allocateTempPath_eq (name t : List Char) (hs : '/' ∉ name) :
    allocateTempPath name t =
      TEMP_DIR ++ '/' :: (uploadBaseName name ++ '_' :: (t ++ '.' :: uploadExt name)) := by
  unfold allocateTempPath osPathJoin
  have hb : ¬ (uploadBaseName name ++ '_' :: (t ++ '.' :: uploadExt name)).head? = some '/' := by
    cases hbn : uploadBaseName name with
    | nil => exact absurd hbn (uploadBaseName_ne_nil name)
    | cons c cs =>
      simp only [List.cons_append, List.head?_cons, Option.some.injEq]
      intro hcontra
      rcases mem_uploadBaseName name c (hbn ▸ List.mem_cons_self c cs) with h | h
      · exact hs (hcontra ▸ h)
      · subst hcontra
        revert h
        decide
  rw [if_neg hb, if_neg (by decide : ¬ TEMP_DIR = []),
    if_neg (by decide : ¬ TEMP_DIR.getLast? = some '/')]

theorem splitSlash_no_slash (l : List Char) (h : '/' ∉ l) : splitSlash l = [l] := by
  induction l with
  | nil => rfl
  | cons c rest ih =>
    have hc : ¬ c = '/' := fun hc => h (hc ▸ List.mem_cons_self c rest)
    have hr := ih (fun hm => h (List.mem_cons_of_mem c hm))
    simp only [splitSlash, if_neg hc, hr]

theorem splitSlash_sep (a b : List Char) (ha : '/' ∉ a) :
    splitSlash (a ++ '/' :: b) = a :: splitSlash b := by
  induction a with
  | nil => simp [splitSlash]
  | cons c rest ih =>
    have hc : ¬ c = '/' := fun hc => ha (hc ▸ List.mem_cons_self c rest)
    have hr := ih (fun hm => ha (List.mem_cons_of_mem c hm))
    simp only [List.cons_append, splitSlash, if_neg hc, List.append_eq, hr]

theorem takeWhile_append_stop (p : Char → Bool) (l1 l2 : List Char) (x : Char)
    (h1 : ∀ a ∈ l1, p a = true) (hx : p x = false) :
    (l1 ++ x :: l2).takeWhile p = l1 := by
  induction l1 with
  | nil => simp [List.takeWhile_cons, hx]
  | cons a l ih =>
    have ha := h1 a (List.mem_cons_self a l)
    simp only [List.cons_append, List.takeWhile_cons, ha, if_true]
    rw [ih (fun b hb => h1 b (List.mem_cons_of_mem a hb))]

theorem fullName_inj (b1 b2 t1 t2 e1 e2 : List Char)
    (hl1 : t1.length = 8) (hl2 : t2.length = 8)
    (he1 : ∀ c ∈ e1, c ≠ '.') (he2 : ∀ c ∈ e2, c ≠ '.')
    (h : b1 ++ '_' :: (t1 ++ '.' :: e1) = b2 ++ '_' :: (t2 ++ '.' :: e2)) :
    t1 = t2 := by
  have hrev := congrArg List.reverse h
  simp only [List.reverse_append, List.reverse_cons, List.append_assoc,
    List.singleton_append, List.cons_append, List.nil_append] at hrev
  have hw1 : (e1.reverse ++ '.' :: (t1.reverse ++ '_' :: b1.reverse)).takeWhile
      (fun c => c != '.') = e1.reverse :=
    takeWhile_append_stop _ _ _ _
      (fun a ha => by simpa using he1 a (List.mem_reverse.mp ha)) (by decide)
  have hw2 : (e2.reverse ++ '.' :: (t2.reverse ++ '_' :: b2.reverse)).takeWhile
      (fun c => c != '.') = e2.reverse :=
    takeWhile_append_stop _ _ _ _
      (fun a ha => by simpa using he2 a (List.mem_reverse.mp ha)) (by decide)
  have he : e1 = e2 := by
    have := congrArg (List.takeWhile (fun c => c != '.')) hrev
    rw [hw1, hw2] at this
    exact List.reverse_injective this
  subst he
  have hlen : ('_' :: (t1 ++ '.' :: e1)).length = ('_' :: (t2 ++ '.' :: e1)).length := by
    simp [hl1, hl2]
  have htail := (List.append_inj' h hlen).2
  injection htail with _ htail2
  exact (List.append_inj htail2 (hl1.trans hl2.symm)).1

/-- C5 counterexample: for the uploaded name "../x.wav" and the 8-hex-char
random token "aabbccdd", the allocated temp path is
"temp_audio/../x_aabbccdd.wav", which resolves to a sibling of the scratch
directory, not to a file inside it: the code never sanitizes the splitext
stem, so the claim that every allocated path lies inside temp_audio with a
sanitized base name is false. -/
theorem alloc_path_escapes_scratch :
    isHexToken8 "aabbccdd".data = true ∧
    allocateTempPath "../x.wav".data "aabbccdd".data =
      "temp_audio/../x_aabbccdd.wav".data ∧
    liesInsideTempAudio (allocateTempPath "../x.wav".data "aabbccdd".data) = false := by
  decide

theorem noSlash_fullName (name t : List Char) (hs : '/' ∉ name)
    (htok : isHexToken8 t = true) :
    '/' ∉ uploadBaseName name ++ '_' :: (t ++ '.' :: uploadExt name) := by
  intro hmem
  rcases List.mem_append.mp hmem with h | h
  · rcases mem_uploadBaseName name '/' h with h' | h'
    · exact hs h'
    · revert h'
      decide
  · rcases List.mem_cons.mp h with h' | h'
    · exact absurd h'.symm (by decide)
    · rcases List.mem_append.mp h' with h'' | h''
      · exact isHexDigitChar_ne_slash '/' (isHexToken8_mem t htok '/' h'') rfl
      · rcases List.mem_cons.mp h'' with h3 | h3
        · exact absurd h3.symm (by decide)
        · exact hs (mem_uploadExt name '/' h3)

theorem liesInside_alloc (name t : List Char) (hs : '/' ∉ name)
    (htok : isHexToken8 t = true) :
    liesInsideTempAudio (allocateTempPath name t) = true := by
  rw [allocateTempPath_eq name t hs]
  have hfs := noSlash_fullName name t hs htok
  have hmem : '_' ∈ uploadBaseName name ++ '_' :: (t ++ '.' :: uploadExt name) :=
    List.mem_append_right _ (List.mem_cons_self _ _)
  have h1 : splitSlash (TEMP_DIR ++ '/' ::
      (uploadBaseName name ++ '_' :: (t ++ '.' :: uploadExt name))) =
      TEMP_DIR :: splitSlash (uploadBaseName name ++ '_' :: (t ++ '.' :: uploadExt name)) :=
    splitSlash_sep _ _ (by decide)
  have h2 := splitSlash_no_slash _ hfs
  unfold liesInsideTempAudio
  rw [h1, h2]
  have hf1 : ¬ (uploadBaseName name ++ '_' :: (t ++ '.' :: uploadExt name) = [] ∨
      uploadBaseName name ++ '_' :: (t ++ '.' :: uploadExt name) = ".".data) := by
    rintro (h | h) <;> rw [h] at hmem <;> revert hmem <;> decide
  have hf2 : ¬ uploadBaseName name ++ '_' :: (t ++ '.' :: uploadExt name) = "..".data := by
    intro h
    rw [h] at hmem
    revert hmem
    decide
  simp only [normComps, if_neg (by decide : ¬ (TEMP_DIR = [] ∨ TEMP_DIR = ".".data)),
    if_neg (by decide : ¬ TEMP_DIR = "..".data), if_neg hf1, if_neg hf2,
    List.reverse_cons, List.reverse_nil, List.nil_append, List.singleton_append]
  decide

/-- C5 amended: for uploads whose original name contains no path separator
(true of browser-supplied upload names), the allocated path is exactly
temp_audio/ followed by base_name, '_', the token, '.', and ext — where
base_name is the UNsanitized `os.path.splitext` stem (with "audio"
substituted for an empty stem) and ext is the text after the name's last dot
(the original extension for the accepted .wav/.mp3 uploads) — the path lies
inside the scratch directory, and two allocations with distinct 8-hex-char
tokens yield distinct paths.  The original claim's "sanitized" stem and its
unconditional containment fail for names containing '/' (see the
counterexample): the code performs no sanitization. -/
theorem alloc_path_shape (name1 name2 t1 t2 : List Char)
    (hs1 : '/' ∉ name1) (hs2 : '/' ∉ name2)
    (h1 : isHexToken8 t1 = true) (h2 : isHexToken8 t2 = true) (ht : t1 ≠ t2) :
    allocateTempPath name1 t1 =
      TEMP_DIR ++ '/' :: (uploadBaseName name1 ++ '_' :: (t1 ++ '.' :: uploadExt name1)) ∧
    liesInsideTempAudio (allocateTempPath name1 t1) = true ∧
    allocateTempPath name1 t1 ≠ allocateTempPath name2 t2 := by
  refine ⟨allocateTempPath_eq name1 t1 hs1, liesInside_alloc name1 t1 hs1 h1, ?_⟩
  intro hEq
  rw [allocateTempPath_eq name1 t1 hs1, allocateTempPath_eq name2 t2 hs2] at hEq
  have h3 := List.append_cancel_left hEq
  injection h3 with _ h4
  exact ht (fullName_inj _ _ _ _ _ _ (isHexToken8_length t1 h1)
    (isHexToken8_length t2 h2) (uploadExt_no_dot name1) (uploadExt_no_dot name2) h4)

theorem filesToProcessAux_length (env : BatchEnv) (i : Nat) (l : List Upload) :
    (filesToProcessAux env i l).length = l.length := by
  induction l generalizing i with
  | nil => rfl
  | cons u rest ih => simp [filesToProcessAux, ih]

theorem filesToProcess_length (env : BatchEnv) :
    (filesToProcess env).length = env.uploads.length :=
  filesToProcessAux_length env 0 env.uploads

theorem filterMap_length_all_some {α β : Type} (f : α → Option β) (l : List α)
    (h : ∀ a ∈ l, (f a).isSome = true) : (l.filterMap f).length = l.length := by
  induction l with
  | nil => rfl
  | cons a rest ih =>
    rcases hf : f a with _ | b
    · exact absurd (h a (List.mem_cons_self a rest)) (by simp [hf])
    · simp [List.filterMap_cons, hf,
        ih (fun x hx => h x (List.mem_cons_of_mem a hx))]

theorem completedFiles_length (env : BatchEnv)
    (hperm : env.order.Perm (List.range env.uploads.length)) :
    (completedFiles env).length = env.uploads.length := by
  unfold completedFiles
  rw [filterMap_length_all_some]
  · rw [hperm.length_eq, List.length_range]
  · intro i hi
    have h1 : i < env.uploads.length := List.mem_range.mp (hperm.mem_iff.mp hi)
    have h2 : i < (filesToProcess env).length := by
      rw [filesToProcess_length]
      exact h1
    rw [List.get?_eq_get h2]
    rfl

theorem dictInsert_not_mem (k : List Char) (v : TranscriptResult)
    (d : List (List Char × TranscriptResult)) (h : ∀ kv ∈ d, kv.1 ≠ k) :
    dictInsert k v d = d ++ [(k, v)] := by
  induction d with
  | nil => rfl
  | cons kv rest ih =>
    have hk : ¬ kv.1 = k := h kv (List.mem_cons_self kv rest)
    simp only [dictInsert, if_neg hk, List.cons_append]
    rw [ih (fun x hx => h x (List.mem_cons_of_mem kv hx))]

theorem insertAll_append (kvs : List (List Char × TranscriptResult)) :
    ∀ d, (∀ kv ∈ kvs, ∀ kv' ∈ d, kv'.1 ≠ kv.1) → (kvs.map Prod.fst).Nodup →
      insertAll d kvs = d ++ kvs := by
  induction kvs with
  | nil =>
    intro d _ _
    simp [insertAll]
  | cons kv rest ih =>
    intro d h hk
    have hknotin : kv.1 ∉ rest.map Prod.fst := (List.nodup_cons.mp hk).1
    have hk2 : (rest.map Prod.fst).Nodup := (List.nodup_cons.mp hk).2
    have h1 : insertAll d (kv :: rest) = insertAll (dictInsert kv.1 kv.2 d) rest := rfl
    rw [h1, dictInsert_not_mem kv.1 kv.2 d (h kv (List.mem_cons_self kv rest))]
    have harg : ∀ kv2 ∈ rest, ∀ kv' ∈ d ++ [(kv.1, kv.2)], kv'.1 ≠ kv2.1 := by
      intro kv2 h2 kv' h3
      rcases List.mem_append.mp h3 with h4 | h4
      · exact h kv2 (List.mem_cons_of_mem kv h2) kv' h4
      · have h5 : kv' = (kv.1, kv.2) := List.mem_singleton.mp h4
        rw [h5]
        intro heq
        apply hknotin
        rw [heq]
        exact List.mem_map_of_mem Prod.fst h2
    rw [ih (d ++ [(kv.1, kv.2)]) harg hk2]
    simp

theorem resultKVsAux_length (env : BatchEnv) (l : List (List Char × List Char)) :
    ∀ j, (resultKVsAux env j l).length = l.length := by
  induction l with
  | nil => intro j; rfl
  | cons f rest ih =>
    intro j
    simp [resultKVsAux, ih (j + 1)]

theorem mem_resultKVsAux_key (env : BatchEnv) (l : List (List Char × List Char)) :
    ∀ j k, k ∈ (resultKVsAux env j l).map Prod.fst →
      ∃ i nm, j ≤ i ∧ i < j + l.length ∧
        k = env.tokens (env.uploads.length + i) ++ '_' :: nm := by
  induction l with
  | nil =>
    intro j k hk
    simp [resultKVsAux] at hk
  | cons f rest ih =>
    intro j k hk
    simp only [resultKVsAux, List.map_cons, List.mem_cons] at hk
    rcases hk with hk | hk
    · exact ⟨j, f.1, le_refl j, by simp, hk⟩
    · obtain ⟨i, nm, h1, h2, h3⟩ := ih (j + 1) k hk
      refine ⟨i, nm, by omega, ?_, h3⟩
      simp only [List.length_cons]
      omega

theorem key_eq_token_eq (t1 t2 r1 r2 : List Char) (h1 : t1.length = 8)
    (h2 : t2.length = 8) (h : t1 ++ r1 = t2 ++ r2) : t1 = t2 := by
  have e1 : (t1 ++ r1).take 8 = t1 := by rw [← h1, take_length_append]
  have e2 : (t2 ++ r2).take 8 = t2 := by rw [← h2, take_length_append]
  rw [h, e2] at e1
  exact e1.symm

theorem resultKVsAux_keys_nodup (env : BatchEnv) (l : List (List Char × List Char)) :
    ∀ j,
      (∀ a b, j ≤ a → a < j + l.length → j ≤ b → b < j + l.length →
        env.tokens (env.uploads.length + a) = env.tokens (env.uploads.length + b) →
        a = b) →
      (∀ a, j ≤ a → a < j + l.length → (env.tokens (env.uploads.length + a)).length = 8) →
      ((resultKVsAux env j l).map Prod.fst).Nodup := by
  induction l with
  | nil =>
    intro j _ _
    simp [resultKVsAux]
  | cons f rest ih =>
    intro j hinj hlen
    have hL : (f :: rest).length = rest.length + 1 := rfl
    simp only [resultKVsAux, List.map_cons]
    rw [List.nodup_cons]
    constructor
    · intro hmem
      obtain ⟨i, nm, h1, h2, h3⟩ := mem_resultKVsAux_key env rest (j + 1) _ hmem
      have ht : env.tokens (env.uploads.length + j) =
          env.tokens (env.uploads.length + i) :=
        key_eq_token_eq _ _ _ _
          (hlen j (le_refl j) (by rw [hL]; omega))
          (hlen i (by omega) (by rw [hL]; omega)) h3
      have := hinj j i (le_refl j) (by rw [hL]; omega) (by omega) (by rw [hL]; omega) ht
      omega
    · exact ih (j + 1)
        (fun a b ha1 ha2 hb1 hb2 he =>
          hinj a b (by omega) (by rw [hL]; omega) (by omega) (by rw [hL]; omega) he)
        (fun a ha1 ha2 => hlen a (by omega) (by rw [hL]; omega))

/-- C1: for every batch, after the processing block completes the results
mapping holds exactly one entry per uploaded file, each under a distinct
key, regardless of each file's outcome (transcript, error string, or raised
exception) — assuming the whole batch completes (the completion order is a
permutation of the submitted futures) and the 2N random 8-hex-char draws
consumed by the run are pairwise distinct, which is what uuid4's entropy
provides. -/
theorem batch_transcripts_complete (env : BatchEnv) (fs0 : FSDir) (now : Int)
    (st0 : SessionState)
    (hperm : env.order.Perm (List.range env.uploads.length))
    (hinj : ∀ a, a < 2 * env.uploads.length → ∀ b, b < 2 * env.uploads.length →
      env.tokens a = env.tokens b → a = b)
    (hlen : ∀ a, a < 2 * env.uploads.length → (env.tokens a).length = 8) :
    (processBatch env fs0 now st0).1.transcripts.length = env.uploads.length ∧
    ((processBatch env fs0 now st0).1.transcripts.map Prod.fst).Nodup := by
  have hM : (completedFiles env).length = env.uploads.length :=
    completedFiles_length env hperm
  have hnd : ((resultKVs env).map Prod.fst).Nodup := by
    unfold resultKVs
    apply resultKVsAux_keys_nodup env (completedFiles env) 0
    · intro a b _ ha _ hb heq
      have ha2 : env.uploads.length + a < 2 * env.uploads.length := by
        rw [hM] at ha
        omega
      have hb2 : env.uploads.length + b < 2 * env.uploads.length := by
        rw [hM] at hb
        omega
      have := hinj _ ha2 _ hb2 heq
      omega
    · intro a _ ha
      refine hlen _ ?_
      rw [hM] at ha
      omega
  have htr : (processBatch env fs0 now st0).1.transcripts = resultKVs env := by
    show insertAll [] (resultKVs env) = resultKVs env
    have := insertAll_append (resultKVs env) [] (fun kv _ kv' h' => absurd h' (List.not_mem_nil kv')) hnd
    simpa using this
  rw [htr]
  refine ⟨?_, hnd⟩
  unfold resultKVs
  rw [resultKVsAux_length, hM]

theorem batch_transcripts_complete_witness :
    (processBatch wBatchEnv wDir 1000 wSession0).1.transcripts.length = 2 ∧
    ((processBatch wBatchEnv wDir 1000 wSession0).1.transcripts.map Prod.fst).Nodup := by
  have h := batch_transcripts_complete wBatchEnv wDir 1000 wSession0
    (by decide) (by decide) (by decide)
  exact ⟨h.1, h.2⟩

theorem fsHasFile_removeFile_self (fs : FSDir) (p : List Char) :
    fsHasFile (removeFile fs p) p = false := by
  unfold fsHasFile removeFile
  rw [List.any_eq_false]
  intro e he
  have h2 := (List.mem_filter.mp he).2
  rw [Bool.not_eq_true'] at h2
  simp [h2]

theorem fsHasFile_removeFile_mono (fs : FSDir) (p q : List Char)
    (h : fsHasFile fs p = false) : fsHasFile (removeFile fs q) p = false := by
  unfold fsHasFile at h
  unfold fsHasFile removeFile
  rw [List.any_eq_false] at h ⊢
  intro e he
  exact h e (List.mem_filter.mp he).1

theorem fsHasFile_removeAllFiles_mono (l : List (List Char × List Char)) :
    ∀ fs p, fsHasFile fs p = false → fsHasFile (removeAllFiles fs l) p = false := by
  induction l with
  | nil =>
    intro fs p h
    exact h
  | cons f rest ih =>
    intro fs p h
    exact ih (removeFile fs f.2) p (fsHasFile_removeFile_mono fs p f.2 h)

theorem fsHasFile_removeAllFiles_of_mem (l : List (List Char × List Char)) :
    ∀ fs p, p ∈ l.map Prod.snd → fsHasFile (removeAllFiles fs l) p = false := by
  induction l with
  | nil =>
    intro fs p h
    cases h
  | cons f rest ih =>
    intro fs p h
    simp only [List.map_cons, List.mem_cons] at h
    rcases h with h1 | h1
    · subst h1
      exact fsHasFile_removeAllFiles_mono rest _ _ (fsHasFile_removeFile_self fs f.2)
    · exact ih (removeFile fs f.2) p h1

theorem fsHasFile_sweep_mono (d : FSDir) (races : List Char → RaceWindow)
    (now maxAge : Int) (p : List Char) (h : fsHasFile d p = false) :
    fsHasFile (delete_old_files_in_directory d races now maxAge) p = false := by
  unfold delete_old_files_in_directory
  cases hp : d.present with
  | false => simpa [hp] using h
  | true =>
    simp only [hp, if_true]
    unfold fsHasFile at h ⊢
    rw [List.any_eq_false] at h ⊢
    intro e he
    exact h e (List.mem_filter.mp he).1

theorem mem_completedFiles (env : BatchEnv)
    (hperm : env.order.Perm (List.range env.uploads.length))
    (f : List Char × List Char) (hf : f ∈ filesToProcess env) :
    f ∈ completedFiles env := by
  obtain ⟨n, hn⟩ := List.mem_iff_get?.mp hf
  have hlt : n < (filesToProcess env).length := by
    rcases List.get?_eq_some.mp hn with ⟨h, _⟩
    exact h
  have hn2 : n ∈ env.order := by
    apply hperm.mem_iff.mpr
    apply List.mem_range.mpr
    rw [← filesToProcess_length env]
    exact hlt
  exact List.mem_filterMap.mpr ⟨n, hn2, hn⟩

/-- C3: each unit of work deletes its own temp file the moment it completes
— the deletion sits in the task's `finally`, so it does not depend on the
transcription's outcome — and once the whole batch has completed (the
completion order covers every submitted future), no allocated temp path of
the batch names a file in the scratch directory. -/
theorem batch_temp_files_released (env : BatchEnv) (fs0 : FSDir) (now : Int)
    (st0 : SessionState)
    (hperm : env.order.Perm (List.range env.uploads.length)) :
    (∀ fs p, fsHasFile (removeFile fs p) p = false) ∧
    (∀ f ∈ filesToProcess env,
      fsHasFile (processBatch env fs0 now st0).2.1 f.2 = false) := by
  refine ⟨fun fs p => fsHasFile_removeFile_self fs p, ?_⟩
  intro f hf
  have hc : f ∈ completedFiles env := mem_completedFiles env hperm f hf
  have hm : f.2 ∈ (completedFiles env).map Prod.snd := List.mem_map_of_mem Prod.snd hc
  show fsHasFile
    (delete_old_files_in_directory
      (removeAllFiles (writeAllFiles now (mkdirTemp fs0) (filesToProcess env))
        (completedFiles env))
      env.races now MAX_TEMP_FILE_AGE_SECONDS) f.2 = false
  apply fsHasFile_sweep_mono
  exact fsHasFile_removeAllFiles_of_mem (completedFiles env) _ f.2 hm

theorem batch_temp_files_released_witness :
    fsHasFile (removeFile wDir "temp_audio/a.wav".data) "temp_audio/a.wav".data = false ∧
    fsHasFile (processBatch wBatchEnv wDir 1000 wSession0).2.1
      (allocateTempPath "a.wav".data "00000000".data) = false := by
  have h := batch_temp_files_released wBatchEnv wDir 1000 wSession0 (by decide)
  exact ⟨h.1 wDir "temp_audio/a.wav".data,
    h.2 ("a.wav".data, allocateTempPath "a.wav".data "00000000".data) (by decide)⟩

/-- C6: when the API credential is absent (falsy), invoking the application
produces exactly one user-visible error message — the one naming the
missing OPENAI_API_KEY prerequisite — returns with the session state
untouched (no upload is processed), and performs no network transcription
call. -/
theorem missing_api_key_single_error (env : MainEnv) (fs0 : FSDir) (now : Int)
    (st0 : SessionState) (hk : keyFalsy env.apiKey = true) :
    (mainRun env fs0 now st0).2.2 = [Eff.errMsg apiKeyMissingMsg] ∧
    (mainRun env fs0 now st0).1 = st0 ∧
    ∀ p, Eff.network p ∉ (mainRun env fs0 now st0).2.2 := by
  have hmain : mainRun env fs0 now st0 =
      (st0, delete_old_files_in_directory (mkdirTemp fs0) env.batch.races now
        MAX_TEMP_FILE_AGE_SECONDS, [Eff.errMsg apiKeyMissingMsg]) := by
    unfold mainRun
    rw [hk]
    rfl
  rw [hmain]
  refine ⟨rfl, rfl, ?_⟩
  intro p hp
  simp at hp

theorem missing_api_key_single_error_witness :
    (mainRun wMainEnvNoKey wDir 1000 wSession0).2.2 = [Eff.errMsg apiKeyMissingMsg] ∧
    (mainRun wMainEnvNoKey wDir 1000 wSession0).1 = wSession0 ∧
    Eff.network "temp_audio/a_00000000.wav".data ∉
      (mainRun wMainEnvNoKey wDir 1000 wSession0).2.2 := by
  have h := missing_api_key_single_error wMainEnvNoKey wDir 1000 wSession0 rfl
  exact ⟨h.1, h.2.1, h.2.2 "temp_audio/a_00000000.wav".data⟩

theorem findTempPath_eq_none (tps : List (List Char × List Char)) (k : List Char)
    (h : ∀ kv ∈ tps, kv.1 ≠ k) : findTempPath tps k = none := by
  induction tps with
  | nil => rfl
  | cons kv rest ih =>
    have hk : ¬ kv.1 = k := h kv (List.mem_cons_self kv rest)
    simp only [findTempPath, if_neg hk]
    exact ih (fun x hx => h x (List.mem_cons_of_mem kv hx))

theorem findTempPath_none_keys (tps : List (List Char × List Char)) (k : List Char)
    (h : findTempPath tps k = none) : ∀ kv ∈ tps, kv.1 ≠ k := by
  induction tps with
  | nil =>
    intro kv hkv
    cases hkv
  | cons kv0 rest ih =>
    intro kv hkv
    by_cases hk : kv0.1 = k
    · rw [findTempPath, if_pos hk] at h
      cases h
    · rw [findTempPath, if_neg hk] at h
      rcases List.mem_cons.mp hkv with h1 | h1
      · rw [h1]
        exact hk
      · exact ih h kv h1

theorem remove_transcript_fst_transcripts (st : SessionState) (fs : FSDir)
    (key : List Char) :
    (remove_transcript st fs key).1.transcripts =
      (if st.transcripts.any (fun kv => decide (kv.1 = key)) then
        st.transcripts.filter (fun kv => !(decide (kv.1 = key)))
      else st.transcripts) := by
  rcases hfind : findTempPath st.temp_paths key with _ | p
  · simp only [remove_transcript, hfind]
  · simp only [remove_transcript, hfind]
    by_cases hc : p ≠ [] ∧ fsExistsPath fs p = true
    · rw [if_pos hc]
    · rw [if_neg hc]

theorem remove_transcript_fst_temp_paths (st : SessionState) (fs : FSDir)
    (key : List Char) :
    (remove_transcript st fs key).1.temp_paths =
      (match findTempPath st.temp_paths key with
      | none => st.temp_paths
      | some _ => st.temp_paths.filter (fun kv => !(decide (kv.1 = key)))) := by
  rcases hfind : findTempPath st.temp_paths key with _ | p
  · simp only [remove_transcript, hfind]
  · simp only [remove_transcript, hfind]
    by_cases hc : p ≠ [] ∧ fsExistsPath fs p = true
    · rw [if_pos hc]
    · rw [if_neg hc]

theorem remove_transcript_snd (st : SessionState) (fs : FSDir) (key : List Char) :
    (remove_transcript st fs key).2 =
      (match findTempPath st.temp_paths key with
      | none => fs
      | some p => if p ≠ [] ∧ fsExistsPath fs p = true then removeFile fs p else fs) := by
  rcases hfind : findTempPath st.temp_paths key with _ | p
  · simp only [remove_transcript, hfind]
  · simp only [remove_transcript, hfind]
    by_cases hc : p ≠ [] ∧ fsExistsPath fs p = true
    · rw [if_pos hc, if_pos hc]
    · rw [if_neg hc, if_neg hc]

/-- C7: after the cleanup callback fires for key K, K is absent from the
results mapping and from the temp-path mapping, and the file at its
recorded temp path (when one was recorded, non-empty and existing) is
removed; the callback leaves everything unchanged when K is already absent;
and re-running the batch processor yields a results mapping that is
independent of the prior session state (it is cleared at the start and its
keys are freshly generated). -/
theorem remove_transcript_spec (st : SessionState) (fs : FSDir) (key : List Char) :
    (∀ v, (key, v) ∉ (remove_transcript st fs key).1.transcripts) ∧
    (∀ q, (key, q) ∉ (remove_transcript st fs key).1.temp_paths) ∧
    ((∀ kv ∈ st.transcripts, kv.1 ≠ key) → (∀ kv ∈ st.temp_paths, kv.1 ≠ key) →
      remove_transcript st fs key = (st, fs)) ∧
    (∀ p, findTempPath st.temp_paths key = some p → p ≠ [] →
      fsExistsPath fs p = true →
      fsHasFile (remove_transcript st fs key).2 p = false) ∧
    (∀ env fs0 now st1 st2,
      (processBatch env fs0 now st1).1.transcripts =
        (processBatch env fs0 now st2).1.transcripts) := by
  have htr : ∀ v, (key, v) ∉
      (if st.transcripts.any (fun kv => decide (kv.1 = key)) then
        st.transcripts.filter (fun kv => !(decide (kv.1 = key)))
      else st.transcripts) := by
    intro v hv
    split at hv
    · have := (List.mem_filter.mp hv).2
      simp at this
    · next hany =>
      exact hany (List.any_eq_true.mpr ⟨(key, v), hv, by simp⟩)
  refine ⟨?_, ?_, ?_, ?_, ?_⟩
  · intro v hv
    rw [remove_transcript_fst_transcripts] at hv
    exact htr v hv
  · intro q hq
    rw [remove_transcript_fst_temp_paths] at hq
    rcases hfind : findTempPath st.temp_paths key with _ | p
    · rw [hfind] at hq
      exact findTempPath_none_keys st.temp_paths key hfind (key, q) hq rfl
    · rw [hfind] at hq
      have := (List.mem_filter.mp hq).2
      simp at this
  · intro h1 h2
    have hfnone := findTempPath_eq_none st.temp_paths key h2
    have hany : st.transcripts.any (fun kv => decide (kv.1 = key)) = false :=
      List.any_eq_false.mpr (fun kv hkv => by simpa using h1 kv hkv)
    simp only [remove_transcript, hfnone, hany, Bool.false_eq_true, if_false]
  · intro p hfind hp hex
    rw [remove_transcript_snd, hfind]
    show fsHasFile (if p ≠ [] ∧ fsExistsPath fs p = true then removeFile fs p else fs)
      p = false
    rw [if_pos (And.intro hp hex)]
    exact fsHasFile_removeFile_self fs p
  · intro env fs0 now st1 st2
    rfl

theorem remove_transcript_spec_witness :
    (wKey, (⟨"a.wav".data, "hello".data⟩ : TranscriptResult)) ∉
      (remove_transcript wSessionFull wDir wKey).1.transcripts ∧
    (wKey, "temp_audio/a.wav".data) ∉
      (remove_transcript wSessionFull wDir wKey).1.temp_paths ∧
    remove_transcript wSession0 wDir wKey = (wSession0, wDir) ∧
    fsHasFile (remove_transcript wSessionFull wDir wKey).2 "temp_audio/a.wav".data =
      false ∧
    (processBatch wBatchEnv wDir 1000 wSession0).1.transcripts =
      (processBatch wBatchEnv wDir 1000 wSessionFull).1.transcripts := by
  have h1 := remove_transcript_spec wSessionFull wDir wKey
  have h2 := remove_transcript_spec wSession0 wDir wKey
  refine ⟨h1.1 _, h1.2.1 _, ?_, ?_, h1.2.2.2.2 wBatchEnv wDir 1000 wSession0 wSessionFull⟩
  · exact h2.2.2.1 (fun kv hkv => absurd hkv (List.not_mem_nil kv))
      (fun kv hkv => absurd hkv (List.not_mem_nil kv))
  · exact h1.2.2.2.1 "temp_audio/a.wav".data (by decide) (by decide) (by decide)

theorem alloc_path_shape_witness :
    allocateTempPath "a.wav".data "00000000".data = "temp_audio/a_00000000.wav".data ∧
    liesInsideTempAudio (allocateTempPath "a.wav".data "00000000".data) = true ∧
    allocateTempPath "a.wav".data "00000000".data ≠
      allocateTempPath "b.mp3".data "11111111".data := by
  have h := alloc_path_shape "a.wav".data "b.mp3".data "00000000".data "11111111".data
    (by decide) (by decide) (by decide) (by decide) (by decide)
  exact ⟨by decide, h.2.1, h.2.2⟩

end AudioApp
